import Mathlib

/-!
Shallow embedding of the acronym-definition extractor
(`src/acronym_parser/__init__.py`).  Text is modelled as `List Char`;
Python machine strings, regexes and dict/set containers are translated
into executable Lean functions over lists.  Python `str.lower` is
modelled on the ASCII range (the separator and letter classes used by
the program are all ASCII).
-/

/-- Strings are modelled as lists of characters. -/
abbrev Str := List Char

/-- ASCII lowercasing, modelling Python `str.lower` on the ASCII range. -/
def asciiLower (c : Char) : Char :=
  if 'A' ≤ c ∧ c ≤ 'Z' then Char.ofNat (c.toNat + 32) else c

/-- Python `\s` whitespace class (ASCII part). -/
def isPySpace (c : Char) : Bool :=
  c = ' ' ∨ c = '\t' ∨ c = '\n' ∨ c = '\r' ∨ c = '\x0b' ∨ c = '\x0c'

/-- The single-character alternatives of `WORD_SPLIT_PATTERN`
(`,` `;` `.` `(` `)` `{` `}` `:` `-`). -/
def isSepChar (c : Char) : Bool :=
  c = ',' ∨ c = ';' ∨ c = '.' ∨ c = '(' ∨ c = ')' ∨
    c = '\x7b' ∨ c = '\x7d' ∨ c = ':' ∨ c = '-'

/-- Python slice `l[a:b]` (with the clamping Python performs). -/
def pySlice (l : List α) (a b : Nat) : List α :=
  (l.take b).drop a

/-- Python `str.strip()`: remove leading and trailing whitespace. -/
def pyStrip (s : Str) : Str :=
  ((s.dropWhile isPySpace).reverse.dropWhile isPySpace).reverse

/-- Whether `s` begins with `pat`. -/
def strStartsWith : Str → Str → Bool
  | [], _ => true
  | _ :: _, [] => false
  | p :: ps, c :: cs => p = c && strStartsWith ps cs

/-- `count_nones` from the source: number of `None` entries. -/
def countNones (l : List (Option Nat)) : Nat :=
  l.countP (fun o => o = none)

/-- `non_none_apply(l, max)` from the source: maximum of the non-`None`
entries, or `None` when there are none. -/
def nonNoneMax (l : List (Option Nat)) : Option Nat :=
  (l.filterMap id).max?

/-- `non_none_apply(l, min)` from the source. -/
def nonNoneMin (l : List (Option Nat)) : Option Nat :=
  (l.filterMap id).min?

/-- `STOP_WORDS` from the source. -/
def STOP_WORDS : List Str :=
  [['a', 'n', 'd'], ['o', 'r'], ['a'], ['t', 'h', 'e'], ['t', 'o'],
   ['o', 'f'], ['f', 'o', 'r'], ['n', 'o', 't'], ['n', 'o', 'r']]

/-- `MAX_ACRONYM_LENGTH` from the source. -/
def MAX_ACRONYM_LENGTH : Nat := 10

/-- Token metadata record (`WordMetadata` in the source). -/
structure WordMetadata where
  text : Str
  acronym_like : Bool
  word_like : Bool
  sentence_number : Nat
  suffix : Bool
deriving DecidableEq, Repr, Inhabited

/-- State of the splitting scan: building a word piece (with its
reversed characters), or inside a whitespace separator run (with the
reversed run; the word piece before the run has been emitted). -/
inductive SplitState where
  | word (acc : Str)
  | run (sp : Str)

/-- `re.split(WORD_SPLIT_PATTERN, text)`, as a character-by-character
scan: the pieces between separator matches interleaved with the
(captured) separator matches themselves.  A separator match is a
maximal whitespace run or one single separator character. -/
def reSplitGo : Str → SplitState → List Str
  | [], .word acc => [acc.reverse]
  | [], .run sp => [sp.reverse, []]
  | c :: cs, .word acc =>
    if isSepChar c then acc.reverse :: [c] :: reSplitGo cs (.word [])
    else if isPySpace c then acc.reverse :: reSplitGo cs (.run [c])
    else reSplitGo cs (.word (c :: acc))
  | c :: cs, .run sp =>
    if isPySpace c then reSplitGo cs (.run (c :: sp))
    else if isSepChar c then sp.reverse :: [] :: [c] :: reSplitGo cs (.word [])
    else sp.reverse :: reSplitGo cs (.word [c])

/-- `re.split(WORD_SPLIT_PATTERN, text)`. -/
def reSplit (text : Str) : List Str := reSplitGo text (.word [])

/-- Whether `re.match(WORD_SPLIT_PATTERN, word)` succeeds: the word
starts with a separator match. -/
def startsWithSep : Str → Bool
  | [] => false
  | c :: _ => isPySpace c || isSepChar c

/-- `bracket_match` from the source: stack-based balance check over
`(`, `[`, `{`. -/
def bracketMatchAux : Str → List Char → Bool
  | [], stack => stack.isEmpty
  | c :: cs, stack =>
    if c = '(' ∨ c = '[' ∨ c = '\x7b' then
      bracketMatchAux cs (c :: stack)
    else if c = ')' ∨ c = ']' ∨ c = '\x7d' then
      match stack with
      | [] => false
      | top :: rest =>
        let opener := if c = ')' then '(' else if c = ']' then '[' else '\x7b'
        if top ≠ opener then false else bracketMatchAux cs rest
    else
      bracketMatchAux cs stack

/-- `bracket_match(text)`. -/
def bracketMatch (text : Str) : Bool := bracketMatchAux text []

def isAsciiLetter (c : Char) : Bool := c.isUpper || c.isLower

/-- Tail `[A-Z][a-z]?s?$` of the acronym regex. -/
def acrTailMatch : Str → Bool
  | [u] => u.isUpper
  | [u, x] => u.isUpper && x.isLower
  | [u, x, s] => u.isUpper && x.isLower && s = 's'
  | _ => false

/-- `[a-zA-Z]*[A-Z][a-z]?s?$`: existential backtracking over the star. -/
def acrPart4 : Str → Bool
  | [] => false
  | c :: rest => acrTailMatch (c :: rest) || (isAsciiLetter c && acrPart4 rest)

/-- `(-|/)?[a-zA-Z]*[A-Z][a-z]?s?$`. -/
def acrPart3 (s : Str) : Bool :=
  acrPart4 s ||
    (match s with
     | c :: rest => (c = '-' || c = '/') && acrPart4 rest
     | [] => false)

/-- `[a-zA-Z]*(-|/)?[a-zA-Z]*[A-Z][a-z]?s?$`. -/
def acrPart2 : Str → Bool
  | [] => false
  | c :: rest => acrPart3 (c :: rest) || (isAsciiLetter c && acrPart2 rest)

/-- `[A-Z][a-zA-Z]*(-|/)?[a-zA-Z]*[A-Z][a-z]?s?$`. -/
def acrCore : Str → Bool
  | [] => false
  | c :: rest => c.isUpper && acrPart2 rest

/-- `looks_like_acronym` from the source: length bound plus the anchored
regex `^[a-z]?[a-z]?[A-Z][a-zA-Z]*(-|/)?[a-zA-Z]*[A-Z][a-z]?s?$`. -/
def looksLikeAcronym (word : Str) : Bool :=
  if word.length > MAX_ACRONYM_LENGTH then false
  else
    acrCore word ||
      (match word with
       | a :: rest =>
         (a.isLower && acrCore rest) ||
           (match rest with
            | b :: rest2 => a.isLower && b.isLower && acrCore rest2
            | [] => false)
       | [] => false)

/-- Metadata for the piece at position `pos` of the split, as computed
by the loop body of `split_words`. -/
def mkWordMeta (pieces : List Str) (pos : Nat) : WordMetadata :=
  let word := pieces.getD pos []
  let word_like := ¬ startsWithSep word
  let acronym_like :=
    0 < pos ∧ pos < pieces.length - 1 ∧
      pieces.getD (pos - 1) [] = ['('] ∧ pieces.getD (pos + 1) [] = [')'] ∧
      looksLikeAcronym word
  let is_suffix := 0 < pos ∧ pieces.getD (pos - 1) [] = ['-']
  { text := word
    acronym_like := acronym_like
    word_like := word_like ∧ ¬ is_suffix
    sentence_number := ((pieces.take pos).countP (fun w => w = ['.']))
    suffix := is_suffix }

/-- `split_words` from the source. -/
def splitWords (text : Str) : List WordMetadata :=
  let pieces := reSplit text
  (List.range pieces.length).map (mkWordMeta pieces)

/-- `merge_complex_acronyms` from the source: re-fuse `( W1 - W2 )`
(or with `/`) windows whose concatenation looks like an acronym. -/
def mergeComplexAcronyms : List WordMetadata → List WordMetadata
  | w0 :: w1 :: w2 :: w3 :: w4 :: rest =>
    let acr := w1.text ++ w2.text ++ w3.text
    if w0.text = ['('] ∧ w4.text = [')'] ∧ (w2.text = ['-'] ∨ w2.text = ['/']) ∧
        looksLikeAcronym acr then
      w0 :: ⟨acr, true, true, w1.sentence_number, false⟩ :: w4 ::
        mergeComplexAcronyms rest
    else
      w0 :: mergeComplexAcronyms (w1 :: w2 :: w3 :: w4 :: rest)
  | ws => ws

/-- The predicate counted by the backward-walk budget of
`mark_acronyms` (line 174): word-like and not a stop word. -/
def isRealWord (w : WordMetadata) : Bool :=
  w.word_like ∧ w.text ∉ STOP_WORDS

/-- `words_covered` for one backward position: real words in
`words[words_pos:acronym_pos]`. -/
def wordsCovered (words : List WordMetadata) (wpos apos : Nat) : Nat :=
  (pySlice words wpos apos).countP isRealWord

/-- Add `wpos` to the candidate set of every acronym letter whose
lowercased value equals the lowercased first character of the word at
`wpos` (line 180-182 of the source). -/
def addLetterMatches (words : List WordMetadata) (wpos : Nat) (atext : Str)
    (m : List (List Nat)) : List (List Nat) :=
  List.zipWith
    (fun lst letter =>
      match (words.getD wpos default).text with
      | [] => lst
      | c :: _ => if asciiLower c = asciiLower letter then wpos :: lst else lst)
    m atext

/-- The backward candidate-collection loop of `mark_acronyms`
(lines 168-182): positions are visited in the given order and the loop
breaks at a sentence boundary or when the real-word budget is
exceeded. -/
def collectGo (words : List WordMetadata) (apos : Nat) (atext : Str) (budget : Nat) :
    List Nat → List (List Nat) → List (List Nat)
  | [], m => m
  | wpos :: rest, m =>
    if (words.getD wpos default).sentence_number ≠ (words.getD apos default).sentence_number then
      m
    else if wordsCovered words wpos apos > atext.length + budget then
      m
    else
      collectGo words apos atext budget rest (addLetterMatches words wpos atext m)

/-- `letter_index_matches` after the backward walk, one candidate list
per acronym letter (visited positions `acronym_pos - 2, …, 0`). -/
def collectMatches (words : List WordMetadata) (apos : Nat) (atext : Str)
    (budget : Nat) : List (List Nat) :=
  collectGo words apos atext budget (List.range (apos - 1)).reverse
    (atext.map (fun _ => []))

/-- One step of the path enumeration (lines 189-196): extend every path
by each candidate of the next letter, or by the missing marker; a
candidate is kept only when the running maximum of non-missing entries
is absent, or the candidate index strictly exceeds it. -/
def stepPaths (paths : List (List (Option Nat))) (choices : List Nat) :
    List (List (Option Nat)) :=
  paths.flatMap (fun path =>
    (choices.map some ++ [none]).filterMap (fun choice =>
      match nonNoneMax path, choice with
      | none, _ => some (path ++ [choice])
      | _, none => some (path ++ [choice])
      | some m, some c => if c > m then some (path ++ [choice]) else none))

/-- The whole path enumeration over the remaining letters. -/
def enumPaths (paths0 : List (List (Option Nat))) (ms : List (List Nat)) :
    List (List (Option Nat)) :=
  ms.foldl stepPaths paths0

/-- The path filter of `mark_acronyms` (lines 198-211): missing-letter
budget, bracket balance of the spanned text, and span word-count bound.
The final `match` arm is unreachable on enumerated paths, whose first
entry is never missing. -/
def filterPath (words : List WordMetadata) (budget : Nat)
    (path : List (Option Nat)) : Bool :=
  let missed := countNones path
  if missed > budget then false
  else
    match nonNoneMin path, nonNoneMax path with
    | some ps, some pe =>
      if ¬ bracketMatch ((pySlice words ps (pe + 1)).map WordMetadata.text).flatten then
        false
      else
        (pySlice words ps (pe + 1)).countP WordMetadata.word_like
          ≤ path.length - missed + budget
    | _, _ => false

/-- The scoring key of line 216-220: `(missing letters, 1 - last match,
span length)`, compared lexicographically as Python compares tuples. -/
def pathKey (p : List (Option Nat)) : Nat × Int × Int :=
  let mx : Int := ((nonNoneMax p).getD 0 : Nat)
  let mn : Int := ((nonNoneMin p).getD 0 : Nat)
  (countNones p, 1 - mx, mx - mn)

/-- Strict lexicographic comparison of scoring keys. -/
def keyLt (a b : Nat × Int × Int) : Bool :=
  a.1 < b.1 ∨ (a.1 = b.1 ∧ (a.2.1 < b.2.1 ∨ (a.2.1 = b.2.1 ∧ a.2.2 < b.2.2)))

/-- Python `min(l, key=f)`: first element with minimal key. -/
def minByKey (f : α → Nat × Int × Int) : List α → Option α
  | [] => none
  | x :: xs => some (xs.foldl (fun acc y => if keyLt (f y) (f acc) then y else acc) x)

/-- The missing-letter interpolation loop (lines 224-241), carrying the
current value of the previous path entry; the `break` of line 231 keeps
the remaining entries unchanged. -/
def interpGo (words : List WordMetadata) :
    Option Nat → List (Option Nat × Char) → List (Option Nat)
  | _, [] => []
  | _, (some c, _) :: rest => some c :: interpGo words (some c) rest
  | none, (none, _) :: rest => none :: rest.map Prod.fst
  | some pc, (none, letter) :: rest =>
    if ((words.getD pc default).text).map asciiLower ∈ STOP_WORDS then
      none :: interpGo words none rest
    else if 1 < ((words.getD pc default).text).length ∧
        asciiLower letter ∈ ((words.getD pc default).text).drop 1 then
      some pc :: interpGo words (some pc) rest
    else
      none :: interpGo words none rest

/-- Interpolation over the whole best path: the first entry (index 0)
is never interpolated. -/
def interpolate (words : List WordMetadata) (best : List (Option Nat))
    (atext : Str) : List (Option Nat) :=
  match best.zip atext with
  | [] => []
  | p0 :: rest => p0.1 :: interpGo words p0.1 rest

/-- The body of the per-acronym loop of `mark_acronyms`: `some start`
exactly when a definition is emitted for the token at `apos`, where
`start` is the minimum index of the final (fully matched) path. -/
def processAcronym (words : List WordMetadata) (budget : Nat) (apos : Nat) :
    Option Nat :=
  if ¬ (words.getD apos default).acronym_like then none
  else
    match collectMatches words apos (words.getD apos default).text budget with
    | [] => none
    | m0 :: rest =>
      match minByKey pathKey
          ((enumPaths
            ((m0.filter (fun c => (words.getD c default).word_like)).map
              (fun c => [some c])) rest).filter (filterPath words budget)) with
      | none => none
      | some best =>
        if countNones (interpolate words best (words.getD apos default).text) = 0 then
          nonNoneMin (interpolate words best (words.getD apos default).text)
        else none

/-- `acronyms.setdefault(acronym.text, set()).add(defn)` on the
insertion-ordered association-list model of the result map. -/
def addDefn (m : List (Str × List Str)) (a : Str) (d : Str) :
    List (Str × List Str) :=
  match m with
  | [] => [(a, [d])]
  | (k, ds) :: rest =>
    if k = a then (k, if d ∈ ds then ds else ds ++ [d]) :: rest
    else (k, ds) :: addDefn rest a d

/-- `mark_acronyms(text, max_intra_word_letters)`: the acronym → set of
definition strings map, modelled as an insertion-ordered association
list. -/
def markAcronyms (text : Str) (budget : Nat) : List (Str × List Str) :=
  let words := mergeComplexAcronyms (splitWords text)
  (List.range words.length).foldl
    (fun m apos =>
      match processAcronym words budget apos with
      | none => m
      | some start =>
        let defn :=
          pyStrip ((pySlice words start (apos - 1)).map WordMetadata.text).flatten
        addDefn m (words.getD apos default).text defn)
    []

/-- `SUBS` from the source (the duplicated `florescence` key of the
Python dict collapses to one entry with the same value). -/
def SUBS : List (Str × Str) :=
  [("carcinoma".toList, "cancer".toList),
   ("carcinomas".toList, "cancer".toList),
   ("florescence".toList, "fluorescent".toList),
   ("florescent".toList, "fluorescent".toList),
   ("stranded".toList, "strand".toList),
   ("indices".toList, "index".toList),
   ("polimerase".toList, "polymerase".toList),
   ("remission".toList, "response".toList),
   ("microarray".toList, "micro array".toList),
   ("gammapathies".toList, "gammopathies".toList),
   ("gammopaties".toList, "gammopathies".toList),
   ("gammapathy".toList, "gammopathy".toList),
   ("progress".toList, "progression".toList),
   ("linda".toList, "lindau".toList)]

/-- Whether `w` ends with `suf`. -/
def strEndsWith (suf w : Str) : Bool := strStartsWith suf.reverse w.reverse

/-- `re.sub(patt + r'$', rep, word)` for a literal pattern: replace the
suffix when present. -/
def subSuffix (suf rep w : Str) : Str :=
  if strEndsWith suf w then w.take (w.length - suf.length) ++ rep else w

/-- `re.sub(r'([^ios])s$', r'\1', word)`: drop a final `s` whose
preceding character exists and is none of `i`, `o`, `s`. -/
def subRuleS (w : Str) : Str :=
  match w.reverse with
  | 's' :: c :: rest =>
    if c = 'i' ∨ c = 'o' ∨ c = 's' then w else (c :: rest).reverse
  | _ => w

/-- `convert_to_singular` from the source: the ordered suffix-rewrite
rules, applied sequentially to the running word. -/
def convertToSingular (w : Str) : Str :=
  let w := subSuffix ['\'', 's'] [] w
  let w := subSuffix "exes".toList "ex".toList w
  let w := subSuffix "ses".toList "s".toList w
  let w := subSuffix "ies".toList "y".toList w
  let w := subRuleS w
  let w := subSuffix "ated".toList "ating".toList w
  let w := subSuffix "iency".toList "ient".toList w
  let w := subSuffix "ced".toList "cing".toList w
  let w := subSuffix "ally".toList "al".toList w
  let w := subSuffix "tation".toList "tating".toList w
  let w := subSuffix "ence".toList "ent".toList w
  subSuffix "ios".toList "io".toList w

/-- Scan for Python `str.split()`: the optional accumulator holds the
reversed characters of the word being built. -/
def pySplitGo : Str → Option Str → List Str
  | [], none => []
  | [], some acc => [acc.reverse]
  | c :: cs, none =>
    if isPySpace c then pySplitGo cs none else pySplitGo cs (some [c])
  | c :: cs, some acc =>
    if isPySpace c then acc.reverse :: pySplitGo cs none
    else pySplitGo cs (some (c :: acc))

/-- Python `str.split()` (no argument): split on whitespace runs,
discarding empty pieces. -/
def pySplitWs (s : Str) : List Str := pySplitGo s none

/-- `re.sub(r'(-|=|/)', ' ', defn)`, per character. -/
def sepToSpace (c : Char) : Char :=
  if c = '-' ∨ c = '=' ∨ c = '/' then ' ' else c

/-- `re.sub(r'[,]', ' ', defn)`, per character. -/
def commaToSpace (c : Char) : Char :=
  if c = ',' then ' ' else c

/-- `SUBS.get(w, w)`. -/
def subsGet (w : Str) : Str := (List.lookup w SUBS).getD w

/-- `normalize_defn` from the source. -/
def normalizeDefn (defn : Str) : Str :=
  let d := pyStrip (defn.map asciiLower)
  let d := (d.map sepToSpace).map commaToSpace
  let ws := pySplitWs d
  let ws := ws.map subsGet
  let ws := ws.map convertToSingular
  let ws := ws.filter (fun w => w ∉ STOP_WORDS)
  ws.flatten

/-- Python substring containment `pat in s`. -/
def isSubstring : Str → Str → Bool
  | pat, [] => pat.isEmpty
  | pat, c :: cs => strStartsWith pat (c :: cs) || isSubstring pat cs

/-- Python `\w` word characters (ASCII model). -/
def isWordChar (c : Char) : Bool := isAsciiLetter c || c.isDigit || c = '_'

/-- Whether the regex `\b` assertion holds between positions `i - 1`
and `i` of `text`. -/
def boundaryAt (text : Str) (i : Nat) : Bool :=
  let prev := if i = 0 then false else isWordChar (text.getD (i - 1) ' ')
  let cur := if i < text.length then isWordChar (text.getD i ' ') else false
  prev ≠ cur

/-- Length of a match of `\b ACR s? \b` starting at position `i` of
`text` (the acronym is taken as a literal string, as it is for the
alphanumeric acronyms this program substitutes); the optional `s` is
tried greedily first, as the regex engine does. -/
def matchLenAt (text acr : Str) (i : Nat) : Option Nat :=
  if boundaryAt text i ∧ (text.drop i).take acr.length = acr then
    if i + acr.length < text.length ∧ text.getD (i + acr.length) ' ' = 's' ∧
        boundaryAt text (i + acr.length + 1) then
      some (acr.length + 1)
    else if boundaryAt text (i + acr.length) then
      some acr.length
    else
      none
  else
    none

/-- Leftmost match of `\b ACR s? \b` in `text`: start position and
length. -/
def firstAcrMatch (text acr : Str) : Option (Nat × Nat) :=
  (List.range (text.length + 1)).findSome?
    (fun i => (matchLenAt text acr i).map (fun n => (i, n)))

/-- `sub_acronym(text, acronym, defn)` from the source: return the text
unchanged when the definition already occurs in it, otherwise annotate
the first whole-word occurrence of the acronym. -/
def subAcronym (text acr defn : Str) : Str :=
  if isSubstring defn text then text
  else
    match firstAcrMatch text acr with
    | none => text
    | some (i, n) =>
      text.take i ++ pySlice text i (i + n) ++
        (' ' :: '(' :: defn ++ [')']) ++ text.drop (i + n)

/-- A character that is none of the separator characters removed by
`normalize_defn` (`-`, `=`, `/`, `,`). -/
def cleanChar (c : Char) : Prop :=
  c ≠ '-' ∧ c ≠ '=' ∧ c ≠ '/' ∧ c ≠ ','

instance (c : Char) : Decidable (cleanChar c) := by
  unfold cleanChar
  infer_instance

/-- Tokens used to probe the path filter: five word-like tokens whose
texts are `g`, `and`, `or`, `of`, `f` (three are stop words). -/
def c3words : List WordMetadata :=
  [⟨"g".toList, false, true, 0, false⟩,
   ⟨"and".toList, false, true, 0, false⟩,
   ⟨"or".toList, false, true, 0, false⟩,
   ⟨"of".toList, false, true, 0, false⟩,
   ⟨"f".toList, false, true, 0, false⟩]

/-!  Claim theorems  -/

/-- C1: for `"epidermal growth factor receptor (EGFR) are found"` with
the default `max_intra_word_letters = 2`, `mark_acronyms` returns
exactly the map `EGFR ↦ {epidermal growth factor receptor}`. -/
theorem C1_egfr_scenario :
    markAcronyms "epidermal growth factor receptor (EGFR) are found".toList 2 =
      [("EGFR".toList, ["epidermal growth factor receptor".toList])] := by
  decide

/-- C4: for `"poly (ADP-ribose) polymerase (PARP) inhibitors"` with the
default `max_intra_word_letters = 2`, `mark_acronyms` returns exactly
the map `PARP ↦ {poly (ADP-ribose) polymerase}`; the emitted span
contains the balanced nested parenthetical `(ADP-ribose)`. -/
theorem C4_parp_scenario :
    markAcronyms "poly (ADP-ribose) polymerase (PARP) inhibitors".toList 2 =
      [("PARP".toList, ["poly (ADP-ribose) polymerase".toList])] := by
  decide

/-- C2 counterexample: at a letter position whose candidate index
equals the running maximum (`0 ≥ 0`), the continuation is NOT retained:
only the missing continuation survives, so no enumerated path maps two
letter positions to one token index. -/
theorem C2_counterexample :
    [some 0, some 0] ∉ stepPaths [[some 0]] [0] ∧
      stepPaths [[some 0]] [0] = [[some 0, none]] := by
  decide

/-- C3 counterexample: the path `[0, 4]` over `c3words` is discarded by
the filter although none of the claim's three conditions is violated:
no letter is missing, the span is bracket-balanced, and the stop-word
excluding word count of the span (2) is within `matched + 2`.  The
filter rejects it because the count it actually uses includes the three
stop words. -/
theorem C3_counterexample :
    filterPath c3words 2 [some 0, some 4] = false ∧
      countNones [some 0, some 4] ≤ 2 ∧
      bracketMatch ((pySlice c3words 0 5).map WordMetadata.text).flatten = true ∧
      (pySlice c3words 0 5).countP isRealWord ≤
        ([some 0, some 4] : List (Option Nat)).length - countNones [some 0, some 4] + 2 := by
  decide

/-- C6 counterexample: the canonical key of `"microarray"` contains a
whitespace character (introduced by the synonym substitution
`microarray ↦ micro array`). -/
theorem C6_counterexample : ' ' ∈ normalizeDefn "microarray".toList := by
  decide

/-- C7: `sub_acronym` returns the text unchanged when the definition
already occurs in it, hence annotating is idempotent on such texts. -/
theorem C7_sub_acronym_idempotent (t a d : Str) (h : isSubstring d t = true) :
    subAcronym t a d = t ∧
      subAcronym (subAcronym t a d) a d = subAcronym t a d := by
  have h1 : subAcronym t a d = t := by
    unfold subAcronym
    rw [if_pos h]
  exact ⟨h1, by rw [h1, h1]⟩

/-- C7 witness at a concrete input. -/
theorem C7_witness :
    isSubstring "growth factor".toList "the growth factor (GF) gene".toList = true ∧
      subAcronym "the growth factor (GF) gene".toList "GF".toList
          "growth factor".toList = "the growth factor (GF) gene".toList ∧
      subAcronym
          (subAcronym "the growth factor (GF) gene".toList "GF".toList
            "growth factor".toList) "GF".toList "growth factor".toList =
        subAcronym "the growth factor (GF) gene".toList "GF".toList
          "growth factor".toList := by
  refine ⟨by decide, ?_⟩
  exact C7_sub_acronym_idempotent _ _ _ (by decide)

/-- C10 counterexample: `split_words` does emit a token whose text is
exactly `/`. -/
theorem C10_counterexample :
    "/".toList ∈ (splitWords "a / b".toList).map WordMetadata.text := by
  decide

/-- Concatenating all pieces produced by the splitting scan recovers
the pending state followed by the unread input. -/
theorem reSplitGo_flatten (cs : Str) :
    ∀ st : SplitState,
      (reSplitGo cs st).flatten =
        (match st with
         | .word acc => acc.reverse
         | .run sp => sp.reverse) ++ cs := by
  induction cs with
  | nil => intro st; cases st <;> simp [reSplitGo]
  | cons c cs ih =>
    intro st
    cases st with
    | word acc =>
      by_cases h1 : isSepChar c
      · simp [reSplitGo, h1, ih]
      · by_cases h2 : isPySpace c
        · simp [reSplitGo, h1, h2, ih]
        · simp [reSplitGo, h1, h2, ih]
    | run sp =>
      by_cases h1 : isPySpace c
      · simp [reSplitGo, h1, ih]
      · by_cases h2 : isSepChar c
        · simp [reSplitGo, h1, h2, ih]
        · simp [reSplitGo, h1, h2, ih]

/-- Reading back a list through positional default lookup. -/
theorem map_getD_range (l : List α) (d : α) :
    (List.range l.length).map (fun i => l.getD i d) = l := by
  induction l with
  | nil => simp
  | cons a l ih =>
    rw [List.length_cons, List.range_succ_eq_map, List.map_cons, List.map_map]
    simp only [List.getD_cons_zero, Function.comp_def, List.getD_cons_succ]
    rw [ih]

/-- The token texts of `split_words` are exactly the split pieces. -/
theorem splitWords_texts (text : Str) :
    (splitWords text).map WordMetadata.text = reSplit text := by
  unfold splitWords
  rw [List.map_map]
  have h : (WordMetadata.text ∘ mkWordMeta (reSplit text)) =
      fun i => (reSplit text).getD i [] := rfl
  rw [h, map_getD_range]

/-- C8: tokenization is reversible: concatenating the token texts of
`split_words`, in order, reproduces the input exactly. -/
theorem C8_tokenization_reversible (text : Str) :
    ((splitWords text).map WordMetadata.text).flatten = text := by
  rw [splitWords_texts]
  unfold reSplit
  rw [reSplitGo_flatten]
  simp

/-- `split_words` has one token per split piece. -/
theorem splitWords_length (text : Str) :
    (splitWords text).length = (reSplit text).length := by
  simp [splitWords]

/-- Positional lookup in `split_words` is the per-position metadata of
the split pieces. -/
theorem splitWords_getD (text : Str) (pos : Nat)
    (h : pos < (reSplit text).length) :
    (splitWords text).getD pos default = mkWordMeta (reSplit text) pos := by
  unfold splitWords
  have h2 : pos < ((List.range (reSplit text).length).map
      (mkWordMeta (reSplit text))).length := by
    simpa using h
  rw [List.getD_eq_getElem _ _ h2, List.getElem_map, List.getElem_range]

/-- An empty-text token that is not a hyphen suffix is word-like and is
counted by the real-word predicate of the alignment engine. -/
theorem mkWordMeta_empty_word_like (pieces : List Str) (pos : Nat)
    (htext : pieces.getD pos [] = [])
    (hprev : pos = 0 ∨ pieces.getD (pos - 1) [] ≠ ['-']) :
    (mkWordMeta pieces pos).word_like = true ∧
      isRealWord (mkWordMeta pieces pos) = true := by
  have hsuf : ¬ (0 < pos ∧ pieces.getD (pos - 1) [] = ['-']) := by
    rcases hprev with h0 | hne
    · omega
    · intro hc; exact hne hc.2
  have hw : (mkWordMeta pieces pos).word_like = true := by
    have he : (mkWordMeta pieces pos).word_like =
        decide (¬ (startsWithSep (pieces.getD pos []) = true) ∧
          ¬ (0 < pos ∧ pieces.getD (pos - 1) [] = ['-'])) := rfl
    rw [he, decide_eq_true_eq]
    refine ⟨?_, hsuf⟩
    rw [htext]
    simp [startsWithSep]
  refine ⟨hw, ?_⟩
  have ht : (mkWordMeta pieces pos).text = [] := htext
  have he2 : isRealWord (mkWordMeta pieces pos) =
      decide ((mkWordMeta pieces pos).word_like = true ∧
        ¬ (mkWordMeta pieces pos).text ∈ STOP_WORDS) := rfl
  rw [he2, decide_eq_true_eq]
  refine ⟨hw, ?_⟩
  rw [ht]
  decide

/-- C9: split pieces can be empty strings (between adjacent separator
matches), and any empty token not preceded by a `-` token is
`word_like`, hence counted both by the backward-walk word budget
(`isRealWord`, the line-174 predicate) and by the span-density filter
(which counts `word_like`); witnessed concretely on `"a (B) c"`, whose
token 2 (between the space and `(`) is empty. -/
theorem C9_empty_tokens_word_like :
    (∀ (text : Str) (pos : Nat), pos < (splitWords text).length →
      ((splitWords text).getD pos default).text = [] →
      (pos = 0 ∨ ((splitWords text).getD (pos - 1) default).text ≠ ['-']) →
      ((splitWords text).getD pos default).word_like = true ∧
        isRealWord ((splitWords text).getD pos default) = true) ∧
    ((splitWords "a (B) c".toList).getD 2 default).text = [] ∧
      ((splitWords "a (B) c".toList).getD 2 default).word_like = true := by
  refine ⟨?_, by decide, by decide⟩
  intro text pos hlen htext hprev
  have hlen' : pos < (reSplit text).length := by
    rwa [splitWords_length] at hlen
  rw [splitWords_getD text pos hlen'] at htext ⊢
  have hprev' : pos = 0 ∨ (reSplit text).getD (pos - 1) [] ≠ ['-'] := by
    rcases hprev with h0 | hne
    · exact Or.inl h0
    · rcases Nat.eq_zero_or_pos pos with h0 | hpos
      · exact Or.inl h0
      · have hlt : pos - 1 < (reSplit text).length := by omega
        rw [splitWords_getD text (pos - 1) hlt] at hne
        exact Or.inr hne
  exact mkWordMeta_empty_word_like (reSplit text) pos htext hprev'

/-- C9 witness: the universal part applied at the concrete text
`"a (B) c"` and position 2. -/
theorem C9_witness :
    ((splitWords "a (B) c".toList).getD 2 default).word_like = true ∧
      isRealWord ((splitWords "a (B) c".toList).getD 2 default) = true :=
  C9_empty_tokens_word_like.1 "a (B) c".toList 2 (by decide) (by decide)
    (Or.inr (by decide))

/-- A word-slot piece of the split: contains no separator characters
and no whitespace. -/
def IsWordPiece (p : Str) : Prop :=
  ∀ c ∈ p, isSepChar c = false ∧ isPySpace c = false

/-- A separator-slot piece of the split: a single separator character,
or a nonempty whitespace run. -/
def IsSepPiece (p : Str) : Prop :=
  (∃ c, isSepChar c = true ∧ p = [c]) ∨ (p ≠ [] ∧ ∀ c ∈ p, isPySpace c = true)

/-- `re.split` output alternates word pieces and separator pieces,
starting and ending with a word piece. -/
inductive AltPieces : List Str → Prop
  | single (w : Str) : IsWordPiece w → AltPieces [w]
  | cons (w s : Str) (rest : List Str) :
      IsWordPiece w → IsSepPiece s → AltPieces rest → AltPieces (w :: s :: rest)

/-- The splitting scan produces alternating pieces: from a word state
(with clean accumulator) a full alternation, from a run state a
separator piece followed by an alternation. -/
theorem reSplitGo_alt (cs : Str) :
    (∀ acc : Str, (∀ c ∈ acc, isSepChar c = false ∧ isPySpace c = false) →
      AltPieces (reSplitGo cs (.word acc))) ∧
    (∀ sp : Str, sp ≠ [] → (∀ c ∈ sp, isPySpace c = true) →
      ∃ s rest, reSplitGo cs (.run sp) = s :: rest ∧ IsSepPiece s ∧ AltPieces rest) := by
  induction cs with
  | nil =>
    constructor
    · intro acc hacc
      exact AltPieces.single _ (fun c hc => hacc c (List.mem_reverse.mp hc))
    · intro sp hne hsp
      refine ⟨sp.reverse, [[]], rfl, ?_, AltPieces.single [] (by simp [IsWordPiece])⟩
      exact Or.inr ⟨by simpa using hne, fun c hc => hsp c (List.mem_reverse.mp hc)⟩
  | cons c cs ih =>
    constructor
    · intro acc hacc
      by_cases h1 : isSepChar c
      · rw [show reSplitGo (c :: cs) (.word acc) =
            acc.reverse :: [c] :: reSplitGo cs (.word []) from by simp [reSplitGo, h1]]
        exact AltPieces.cons _ _ _ (fun x hx => hacc x (List.mem_reverse.mp hx))
          (Or.inl ⟨c, h1, rfl⟩) (ih.1 [] (by simp))
      · by_cases h2 : isPySpace c
        · rw [show reSplitGo (c :: cs) (.word acc) =
              acc.reverse :: reSplitGo cs (.run [c]) from by simp [reSplitGo, h1, h2]]
          obtain ⟨s, rest, heq, hs, hrest⟩ := ih.2 [c] (by simp)
            (by intro x hx; simp at hx; rwa [hx])
          rw [heq]
          exact AltPieces.cons _ _ _ (fun x hx => hacc x (List.mem_reverse.mp hx)) hs hrest
        · rw [show reSplitGo (c :: cs) (.word acc) =
              reSplitGo cs (.word (c :: acc)) from by simp [reSplitGo, h1, h2]]
          refine ih.1 (c :: acc) ?_
          intro x hx
          rcases List.mem_cons.mp hx with h | h
          · subst h
            exact ⟨by simpa using h1, by simpa using h2⟩
          · exact hacc x h
    · intro sp hne hsp
      by_cases h1 : isPySpace c
      · rw [show reSplitGo (c :: cs) (.run sp) =
            reSplitGo cs (.run (c :: sp)) from by simp [reSplitGo, h1]]
        refine ih.2 (c :: sp) (by simp) ?_
        intro x hx
        rcases List.mem_cons.mp hx with h | h
        · subst h; exact h1
        · exact hsp x h
      · by_cases h2 : isSepChar c
        · rw [show reSplitGo (c :: cs) (.run sp) =
              sp.reverse :: [] :: [c] :: reSplitGo cs (.word []) from by
            simp [reSplitGo, h1, h2]]
          refine ⟨sp.reverse, [] :: [c] :: reSplitGo cs (.word []), rfl, ?_, ?_⟩
          · exact Or.inr ⟨by simpa using hne, fun x hx => hsp x (List.mem_reverse.mp hx)⟩
          · exact AltPieces.cons _ _ _ (by simp [IsWordPiece]) (Or.inl ⟨c, h2, rfl⟩)
              (ih.1 [] (by simp))
        · rw [show reSplitGo (c :: cs) (.run sp) =
              sp.reverse :: reSplitGo cs (.word [c]) from by simp [reSplitGo, h1, h2]]
          refine ⟨sp.reverse, reSplitGo cs (.word [c]), rfl, ?_, ?_⟩
          · exact Or.inr ⟨by simpa using hne, fun x hx => hsp x (List.mem_reverse.mp hx)⟩
          · refine ih.1 [c] ?_
            intro x hx
            simp at hx
            subst hx
            exact ⟨by simpa using h2, by simpa using h1⟩

/-- The pieces of `re.split` alternate word/separator slots. -/
theorem reSplit_alt (text : Str) : AltPieces (reSplit text) :=
  (reSplitGo_alt text).1 [] (by simp)

/-- In an alternating piece list, even positions hold word pieces and
odd in-range positions hold separator pieces. -/
theorem altPieces_getD {l : List Str} (h : AltPieces l) :
    ∀ i : Nat, (i % 2 = 0 → IsWordPiece (l.getD i [])) ∧
      (i % 2 = 1 → i < l.length → IsSepPiece (l.getD i [])) := by
  induction h with
  | single w hw =>
    intro i
    constructor
    · intro _
      match i with
      | 0 => exact hw
      | i + 1 =>
        rw [List.getD_eq_default]
        · intro c hc; simp at hc
        · simp
    · intro hodd hlen
      simp at hlen
      omega
  | cons w s rest hw hs _ ih =>
    intro i
    match i with
    | 0 => exact ⟨fun _ => hw, fun h1 => by omega⟩
    | 1 => exact ⟨fun h1 => by omega, fun _ _ => hs⟩
    | i + 2 =>
      have hmod : (i + 2) % 2 = i % 2 := by omega
      constructor
      · intro he
        rw [List.getD_cons_succ, List.getD_cons_succ]
        exact (ih i).1 (by omega)
      · intro ho hlen
        rw [List.getD_cons_succ, List.getD_cons_succ]
        refine (ih i).2 (by omega) ?_
        simp at hlen
        omega

/-- Token texts at arbitrary positions agree with the split pieces. -/
theorem splitWords_text_getD (text : Str) (i : Nat) :
    ((splitWords text).getD i default).text = (reSplit text).getD i [] := by
  by_cases h : i < (reSplit text).length
  · rw [splitWords_getD text i h]
    rfl
  · rw [List.getD_eq_default, List.getD_eq_default]
    · rfl
    · omega
    · rw [splitWords_length]; omega

/-- C10 (amended): `split_words` can emit `/` as a token (it is not a
separator), but only in word slots: a token two positions after a `(`
token is a separator-slot token and is never `/`, so the `/`
alternative of the `( WORD sep WORD )` merge window can never fire on
tokenizer output; slash-joined forms like `AP/BP` stay single tokens. -/
theorem C10_slash_never_in_separator_slot :
    (∀ (text : Str) (i : Nat),
      ((splitWords text).getD i default).text = ['('] →
      ((splitWords text).getD (i + 2) default).text ≠ ['/']) ∧
    "AP/BP".toList ∈ (splitWords "c (AP/BP) d".toList).map WordMetadata.text := by
  refine ⟨?_, by decide⟩
  intro text i hopen
  rw [splitWords_text_getD] at hopen ⊢
  have halt := reSplit_alt text
  have hiodd : i % 2 = 1 := by
    rcases Nat.mod_two_eq_zero_or_one i with he | ho
    · exfalso
      have hw := (altPieces_getD halt i).1 he
      rw [hopen] at hw
      have := hw '(' (by simp)
      simp [isSepChar] at this
    · exact ho
  intro hslash
  have hlen : i + 2 < (reSplit text).length := by
    by_contra hge
    rw [List.getD_eq_default] at hslash
    · simp at hslash
    · omega
  have hs := (altPieces_getD halt (i + 2)).2 (by omega) hlen
  rw [hslash] at hs
  rcases hs with ⟨c, hc, heq⟩ | ⟨_, hall⟩
  · have : c = '/' := by
      have := List.cons.injEq '/' ([] : Str) c [] ▸ heq
      simp at heq
      exact heq.symm
    rw [this] at hc
    simp [isSepChar] at hc
  · have := hall '/' (by simp)
    simp [isPySpace] at this

/-- C10 witness: applied at `"a (B) c"`, whose piece 3 is `(`; piece 5
(the separator slot two after it) is `)`, not `/`. -/
theorem C10_witness :
    ((splitWords "a (B) c".toList).getD 3 default).text = ['('] ∧
      ((splitWords "a (B) c".toList).getD 5 default).text ≠ ['/'] :=
  ⟨by decide, C10_slash_never_in_separator_slot.1 "a (B) c".toList 3 (by decide)⟩

/-- C3 (amended): a path passes the filter iff its missing-letter count
is within budget, the spanned text is bracket-balanced, and the count
of ALL word-like tokens in the span (stop words included, unlike the
backward-walk budget) is at most `(matched letters) + budget`. -/
theorem C3_filter_condition (words : List WordMetadata) (budget : Nat)
    (path : List (Option Nat)) (ps pe : Nat)
    (h1 : nonNoneMin path = some ps) (h2 : nonNoneMax path = some pe) :
    filterPath words budget path = true ↔
      countNones path ≤ budget ∧
      bracketMatch ((pySlice words ps (pe + 1)).map WordMetadata.text).flatten = true ∧
      (pySlice words ps (pe + 1)).countP WordMetadata.word_like ≤
        path.length - countNones path + budget := by
  unfold filterPath
  rw [h1, h2]
  by_cases hm : countNones path > budget
  · simp only [if_pos hm]
    constructor
    · intro h; simp at h
    · intro h; omega
  · rw [if_neg hm]
    by_cases hb :
        bracketMatch ((pySlice words ps (pe + 1)).map WordMetadata.text).flatten = true
    · simp only [hb, not_true, if_neg (by simp : ¬ (True = False)), if_false]
      simp [hb]
      omega
    · simp [hb]

/-- C3 witness: the amended condition instantiated on `c3words` with
the path `[0, 4]`. -/
theorem C3_witness :
    filterPath c3words 2 [some 0, some 4] = true ↔
      countNones [some 0, some 4] ≤ 2 ∧
      bracketMatch ((pySlice c3words 0 5).map WordMetadata.text).flatten = true ∧
      (pySlice c3words 0 5).countP WordMetadata.word_like ≤
        ([some 0, some 4] : List (Option Nat)).length -
          countNones [some 0, some 4] + 2 :=
  C3_filter_condition c3words 2 [some 0, some 4] 0 4 (by decide) (by decide)

/-- Characters of the words produced by the whitespace split all come
from the input (or the pending accumulator). -/
theorem pySplitGo_chars (P : Char → Prop) :
    ∀ (s : Str) (st : Option Str), (∀ c ∈ s, P c) →
      (∀ acc, st = some acc → ∀ c ∈ acc, P c) →
      ∀ w ∈ pySplitGo s st, ∀ c ∈ w, P c := by
  intro s
  induction s with
  | nil =>
    intro st h1 h2 w hw
    cases st with
    | none => simp [pySplitGo] at hw
    | some acc =>
      simp [pySplitGo] at hw
      subst hw
      intro c hc
      exact h2 acc rfl c (List.mem_reverse.mp hc)
  | cons a s ih =>
    intro st h1 h2 w hw
    have h1s : ∀ c ∈ s, P c := fun c hc => h1 c (List.mem_cons_of_mem a hc)
    have h1a : P a := h1 a (List.mem_cons_self a s)
    cases st with
    | none =>
      by_cases hsp : isPySpace a
      · rw [show pySplitGo (a :: s) none = pySplitGo s none from by
          simp [pySplitGo, hsp]] at hw
        exact ih none h1s (by intro acc h; cases h) w hw
      · rw [show pySplitGo (a :: s) none = pySplitGo s (some [a]) from by
          simp [pySplitGo, hsp]] at hw
        refine ih (some [a]) h1s ?_ w hw
        intro acc h c hc
        cases h
        simp at hc
        subst hc
        exact h1a
    | some acc =>
      by_cases hsp : isPySpace a
      · rw [show pySplitGo (a :: s) (some acc) = acc.reverse :: pySplitGo s none from by
          simp [pySplitGo, hsp]] at hw
        rcases List.mem_cons.mp hw with h | h
        · subst h
          intro c hc
          exact h2 acc rfl c (List.mem_reverse.mp hc)
        · exact ih none h1s (by intro acc2 hx; cases hx) w h
      · rw [show pySplitGo (a :: s) (some acc) = pySplitGo s (some (a :: acc)) from by
          simp [pySplitGo, hsp]] at hw
        refine ih (some (a :: acc)) h1s ?_ w hw
        intro acc2 h c hc
        cases h
        rcases List.mem_cons.mp hc with h | h
        · subst h; exact h1a
        · exact h2 acc rfl c h

/-- A successful association-list lookup returns one of the stored
values. -/
theorem lookup_mem_values [BEq α] [LawfulBEq α] (l : List (α × β)) (k : α) (v : β)
    (h : List.lookup k l = some v) : v ∈ l.map Prod.snd := by
  induction l with
  | nil => simp [List.lookup] at h
  | cons p t ih =>
    rw [List.lookup] at h
    cases hk : (k == p.1) with
    | true =>
      rw [hk] at h
      simp at h
      simp [h]
    | false =>
      rw [hk] at h
      simp [ih h]

/-- Every value of the synonym table avoids the separator characters. -/
theorem subs_values_clean : ∀ v ∈ SUBS.map Prod.snd, ∀ c ∈ v, cleanChar c := by
  decide

/-- Characters of a suffix rewrite come from the word or the
replacement. -/
theorem subSuffix_chars (suf rep w : Str) (c : Char) (hc : c ∈ subSuffix suf rep w) :
    c ∈ w ∨ c ∈ rep := by
  unfold subSuffix at hc
  split at hc
  · rcases List.mem_append.mp hc with h | h
    · exact Or.inl (List.take_subset _ _ h)
    · exact Or.inr h
  · exact Or.inl hc

/-- Characters of the `([^ios])s$` rewrite come from the word. -/
theorem subRuleS_chars (w : Str) (c : Char) (hc : c ∈ subRuleS w) : c ∈ w := by
  unfold subRuleS at hc
  rcases hrev : w.reverse with _ | ⟨a, _ | ⟨b, tl⟩⟩ <;> rw [hrev] at hc
  · simpa using hc
  · simpa using hc
  · by_cases ha : a = 's'
    · subst ha
      simp only [] at hc
      split at hc
      · exact hc
      · have hw : w = ('s' :: b :: tl).reverse := by
          rw [← hrev, List.reverse_reverse]
        rw [hw]
        rw [List.mem_reverse] at hc ⊢
        exact List.mem_cons_of_mem _ hc
    · simp [ha] at hc
      exact hc

/-- `convert_to_singular` introduces no separator characters. -/
theorem convertToSingular_clean (w : Str) (hw : ∀ x ∈ w, cleanChar x) :
    ∀ c ∈ convertToSingular w, cleanChar c := by
  have step : ∀ (suf rep v : Str), (∀ x ∈ v, cleanChar x) →
      (∀ x ∈ rep, cleanChar x) → ∀ c ∈ subSuffix suf rep v, cleanChar c := by
    intro suf rep v hv hr c hc
    rcases subSuffix_chars suf rep v c hc with h | h
    · exact hv c h
    · exact hr c h
  have step2 : ∀ (v : Str), (∀ x ∈ v, cleanChar x) → ∀ c ∈ subRuleS v, cleanChar c :=
    fun v hv c hc => hv c (subRuleS_chars v c hc)
  have h1 := step ['\'', 's'] [] w hw (by simp)
  have h2 := step "exes".toList "ex".toList _ h1 (by decide)
  have h3 := step "ses".toList "s".toList _ h2 (by decide)
  have h4 := step "ies".toList "y".toList _ h3 (by decide)
  have h5 := step2 _ h4
  have h6 := step "ated".toList "ating".toList _ h5 (by decide)
  have h7 := step "iency".toList "ient".toList _ h6 (by decide)
  have h8 := step "ced".toList "cing".toList _ h7 (by decide)
  have h9 := step "ally".toList "al".toList _ h8 (by decide)
  have h10 := step "tation".toList "tating".toList _ h9 (by decide)
  have h11 := step "ence".toList "ent".toList _ h10 (by decide)
  have h12 := step "ios".toList "io".toList _ h11 (by decide)
  exact h12

/-- C6 (amended): the canonical comparison key never contains `-`, `=`,
`/` or `,` (they are all replaced by spaces and then removed by the
whitespace split); whitespace itself, however, can appear, introduced
by the synonym value `micro array`. -/
theorem C6_no_removed_separators (s : Str) :
    ∀ c ∈ normalizeDefn s, c ≠ '-' ∧ c ≠ '=' ∧ c ≠ '/' ∧ c ≠ ',' := by
  intro c hc
  have hc2 : c ∈ (((((pySplitWs
      (((pyStrip (s.map asciiLower)).map sepToSpace).map commaToSpace)).map
        subsGet).map convertToSingular).filter (fun w => w ∉ STOP_WORDS)).flatten) := hc
  rw [List.mem_flatten] at hc2
  obtain ⟨w, hwmem, hcw⟩ := hc2
  have hwmem2 := (List.mem_filter.mp hwmem).1
  rw [List.mem_map] at hwmem2
  obtain ⟨w1, hw1, rfl⟩ := hwmem2
  rw [List.mem_map] at hw1
  obtain ⟨w2, hw2, rfl⟩ := hw1
  have hd : ∀ x ∈ ((pyStrip (s.map asciiLower)).map sepToSpace).map commaToSpace,
      cleanChar x := by
    intro x hx
    rw [List.mem_map] at hx
    obtain ⟨y, _, rfl⟩ := hx
    rw [List.mem_map] at *
    obtain ⟨z, _, rfl⟩ := by assumption
    unfold cleanChar commaToSpace sepToSpace
    split_ifs with hz1 hz2 <;> simp_all
  have hw2c : ∀ x ∈ w2, cleanChar x :=
    pySplitGo_chars cleanChar _ none hd (by intro acc h; cases h) w2 hw2
  have hw1c : ∀ x ∈ subsGet w2, cleanChar x := by
    unfold subsGet
    cases hl : List.lookup w2 SUBS with
    | none => simpa using hw2c
    | some v =>
      intro x hx
      simp at hx
      exact subs_values_clean v (lookup_mem_values SUBS w2 v hl) x hx
  exact convertToSingular_clean _ hw1c c hcw

/-- C6 witness: the amended statement applied to the key of `"m-x"`,
which contains `m`. -/
theorem C6_witness :
    'm' ∈ normalizeDefn "m-x".toList ∧
      ('m' ≠ '-' ∧ 'm' ≠ '=' ∧ 'm' ≠ '/' ∧ 'm' ≠ ',') :=
  ⟨by decide, C6_no_removed_separators "m-x".toList 'm' (by decide)⟩

/-- The seed of a fold with `max` bounds it below. -/
theorem le_foldl_max (l : List Nat) : ∀ a : Nat, a ≤ l.foldl max a := by
  induction l with
  | nil => intro a; exact Nat.le_refl a
  | cons b t ih =>
    intro a
    exact Nat.le_trans (Nat.le_max_left a b) (ih (max a b))

/-- Every member of a list is bounded by a `max` fold over it. -/
theorem mem_le_foldl_max (l : List Nat) : ∀ (a x : Nat), x ∈ l → x ≤ l.foldl max a := by
  induction l with
  | nil => intro a x hx; cases hx
  | cons b t ih =>
    intro a x hx
    rcases List.mem_cons.mp hx with h | h
    · subst h
      exact Nat.le_trans (Nat.le_max_right a x) (le_foldl_max t (max a x))
    · exact ih (max a b) x h

/-- Every member of a list is at most its `max?`. -/
theorem mem_le_max? (l : List Nat) (x : Nat) (hx : x ∈ l) :
    ∃ m, l.max? = some m ∧ x ≤ m := by
  cases l with
  | nil => cases hx
  | cons a t =>
    refine ⟨t.foldl max a, rfl, ?_⟩
    rcases List.mem_cons.mp hx with h | h
    · subst h; exact le_foldl_max t x
    · exact mem_le_foldl_max t a x h

/-- Every non-missing entry of a path is at most the running maximum
`nonNoneMax`. -/
theorem nonNoneMax_le (q : List (Option Nat)) (x : Nat) (hx : some x ∈ q) :
    ∃ m, nonNoneMax q = some m ∧ x ≤ m := by
  refine mem_le_max? (q.filterMap id) x ?_
  rw [List.mem_filterMap]
  exact ⟨some x, hx, rfl⟩

/-- Inversion for one enumeration step: every produced path extends a
previous path by the missing marker, or by a candidate index strictly
above the running maximum of the previous path (when the previous path
has a running maximum at all). -/
theorem stepPaths_inv {paths : List (List (Option Nat))} {choices : List Nat}
    {p : List (Option Nat)} (hp : p ∈ stepPaths paths choices) :
    ∃ q ∈ paths,
      (p = q ++ [none] ∨
        ∃ c ∈ choices, p = q ++ [some c] ∧
          (nonNoneMax q = none ∨ ∃ m, nonNoneMax q = some m ∧ m < c)) := by
  unfold stepPaths at hp
  rw [List.mem_flatMap] at hp
  obtain ⟨q, hq, hp⟩ := hp
  refine ⟨q, hq, ?_⟩
  rw [List.mem_filterMap] at hp
  obtain ⟨choice, hchoice, heq⟩ := hp
  rcases List.mem_append.mp hchoice with hc | hc
  · rw [List.mem_map] at hc
    obtain ⟨c, hcmem, rfl⟩ := hc
    right
    refine ⟨c, hcmem, ?_⟩
    cases hmax : nonNoneMax q with
    | none =>
      rw [hmax] at heq
      simp at heq
      exact ⟨heq.symm, Or.inl rfl⟩
    | some m =>
      rw [hmax] at heq
      simp only [] at heq
      by_cases hlt : c > m
      · rw [if_pos hlt] at heq
        simp at heq
        exact ⟨heq.symm, Or.inr ⟨m, rfl, hlt⟩⟩
      · rw [if_neg hlt] at heq
        cases heq
  · simp at hc
    subst hc
    left
    cases hmax : nonNoneMax q with
    | none => rw [hmax] at heq; simp at heq; exact heq.symm
    | some m => rw [hmax] at heq; simp at heq; exact heq.symm

/-- The missing marker is always an allowed continuation. -/
theorem stepPaths_none_mem (paths : List (List (Option Nat))) (choices : List Nat)
    (q : List (Option Nat)) (hq : q ∈ paths) :
    q ++ [none] ∈ stepPaths paths choices := by
  unfold stepPaths
  rw [List.mem_flatMap]
  refine ⟨q, hq, ?_⟩
  rw [List.mem_filterMap]
  refine ⟨none, by simp, ?_⟩
  cases hmax : nonNoneMax q <;> simp

/-- A candidate strictly above the running maximum is retained. -/
theorem stepPaths_gt_mem (paths : List (List (Option Nat))) (choices : List Nat)
    (q : List (Option Nat)) (c : Nat) (hq : q ∈ paths) (hc : c ∈ choices)
    (h : nonNoneMax q = none ∨ ∃ m, nonNoneMax q = some m ∧ m < c) :
    q ++ [some c] ∈ stepPaths paths choices := by
  unfold stepPaths
  rw [List.mem_flatMap]
  refine ⟨q, hq, ?_⟩
  rw [List.mem_filterMap]
  refine ⟨some c, by simp [hc], ?_⟩
  rcases h with hnone | ⟨m, hm, hlt⟩
  · rw [hnone]
  · rw [hm]
    simp only []
    rw [if_pos hlt]

/-- Non-missing entries of every enumerated path are strictly
increasing (provided the starting paths are). -/
theorem enumPaths_strict_incr (ms : List (List Nat)) :
    ∀ paths0 : List (List (Option Nat)),
      (∀ q ∈ paths0, (q.filterMap id).Pairwise (· < ·)) →
      ∀ p ∈ enumPaths paths0 ms, (p.filterMap id).Pairwise (· < ·) := by
  induction ms with
  | nil => intro paths0 h p hp; exact h p hp
  | cons m ms ih =>
    intro paths0 h p hp
    rw [show enumPaths paths0 (m :: ms) = enumPaths (stepPaths paths0 m) ms from rfl] at hp
    refine ih (stepPaths paths0 m) ?_ p hp
    intro q' hq'
    obtain ⟨q, hq, hcase⟩ := stepPaths_inv hq'
    have hqp := h q hq
    rcases hcase with rfl | ⟨c, _, rfl, hmax⟩
    · rw [List.filterMap_append]
      simpa using hqp
    · rw [List.filterMap_append, List.pairwise_append]
      refine ⟨hqp, by simp, ?_⟩
      intro a ha b hb
      simp at hb
      subst hb
      have hmem : some a ∈ q := by
        rw [List.mem_filterMap] at ha
        obtain ⟨o, ho, hoe⟩ := ha
        cases o with
        | none => cases hoe
        | some x => cases hoe; exact ho
      rcases hmax with hnone | ⟨mm, hmm, hlt⟩
      · rw [nonNoneMax, List.max?_eq_none_iff] at hnone
        rw [hnone] at ha
        cases ha
      · obtain ⟨m2, hm2, hle⟩ := nonNoneMax_le q a hmem
        rw [hmm] at hm2
        cases hm2
        omega

/-- C2 (amended): in the path enumeration, the missing marker is always
an allowed continuation; a candidate index is retained iff it is
STRICTLY greater than the running maximum of non-missing entries (a
candidate equal to the running maximum is dropped); consequently the
non-missing entries of every enumerated path are strictly increasing,
and two distinct letter positions never share a token index within the
enumeration (equal indices can appear only later, through missing-letter
interpolation). -/
theorem C2_enumeration_strictly_increasing
    (paths : List (List (Option Nat))) (choices : List Nat)
    (q : List (Option Nat)) (c : Nat)
    (ms : List (List Nat)) (paths0 : List (List (Option Nat)))
    (hq : q ∈ paths) :
    (q ++ [none] ∈ stepPaths paths choices) ∧
    (c ∈ choices → (nonNoneMax q = none ∨ ∃ m, nonNoneMax q = some m ∧ m < c) →
      q ++ [some c] ∈ stepPaths paths choices) ∧
    (∀ m, nonNoneMax q = some m → c ≤ m →
      q ++ [some c] ∉ stepPaths paths choices) ∧
    ((∀ r ∈ paths0, (r.filterMap id).Pairwise (· < ·)) →
      ∀ p ∈ enumPaths paths0 ms, (p.filterMap id).Pairwise (· < ·)) := by
  refine ⟨stepPaths_none_mem paths choices q hq,
    fun hc h => stepPaths_gt_mem paths choices q c hq hc h, ?_,
    fun h0 => enumPaths_strict_incr ms paths0 h0⟩
  intro m hm hle hmem
  obtain ⟨q', hq', hcase⟩ := stepPaths_inv hmem
  rcases hcase with heq | ⟨c', _, heq, hmax⟩
  · have := (List.append_inj' heq.symm rfl).2
    cases this
  · obtain ⟨hq2, hc2⟩ := List.append_inj' heq.symm rfl
    have hcc : c' = c := by
      have := List.cons.inj hc2.symm
      have h3 : c = c' := by simpa using this.1
      exact h3.symm
    subst hcc
    subst hq2
    rcases hmax with hnone | ⟨m', hm', hlt⟩
    · rw [hm] at hnone; cases hnone
    · rw [hm] at hm'
      cases hm'
      omega

/-- C2 witness: the amended statement at a concrete instance. -/
theorem C2_witness :
    ([some 0] ++ [none] ∈ stepPaths [[some 0]] [1]) ∧
    ((1 : Nat) ∈ [1] →
      (nonNoneMax [some 0] = none ∨ ∃ m, nonNoneMax [some 0] = some m ∧ m < 1) →
      [some 0] ++ [some 1] ∈ stepPaths [[some 0]] [1]) ∧
    (∀ m, nonNoneMax [some 0] = some m → 1 ≤ m →
      [some 0] ++ [some 1] ∉ stepPaths [[some 0]] [1]) ∧
    ((∀ r ∈ ([] : List (List (Option Nat))), (r.filterMap id).Pairwise (· < ·)) →
      ∀ p ∈ enumPaths [] [], (p.filterMap id).Pairwise (· < ·)) :=
  C2_enumeration_strictly_increasing [[some 0]] [1] [some 0] 1 [] [] (by decide)

/-- `countP` over a prefix is monotone in the prefix length. -/
theorem countP_take_mono (l : List α) (p : α → Bool) (i j : Nat) (h : i ≤ j) :
    (l.take i).countP p ≤ (l.take j).countP p := by
  have hsub : (l.take i).Sublist (l.take j) := by
    rw [show l.take i = (l.take j).take i from by
      rw [List.take_take, Nat.min_eq_left h]]
    exact List.take_sublist i (l.take j)
  exact List.Sublist.countP_le p hsub

/-- The sentence numbers of `split_words` tokens are non-decreasing. -/
theorem splitWords_sent_pairwise (text : Str) :
    (splitWords text).Pairwise (fun a b => a.sentence_number ≤ b.sentence_number) := by
  unfold splitWords
  rw [List.pairwise_map]
  refine (List.pairwise_lt_range (reSplit text).length).imp ?_
  intro i j hij
  exact countP_take_mono (reSplit text) _ i j (Nat.le_of_lt hij)

/-- Every token of the merged list carries the sentence number of some
token of the input list. -/
theorem merge_sent_mem (ws : List WordMetadata) :
    ∀ x ∈ mergeComplexAcronyms ws, ∃ y ∈ ws, x.sentence_number = y.sentence_number := by
  induction ws using mergeComplexAcronyms.induct with
  | case1 w0 w1 w2 w3 w4 rest acr hcond ih =>
    intro x hx
    have hcond2 : w0.text = ['('] ∧ w4.text = [')'] ∧
        (w2.text = ['-'] ∨ w2.text = ['/']) ∧
        looksLikeAcronym (w1.text ++ w2.text ++ w3.text) = true := hcond
    rw [show mergeComplexAcronyms (w0 :: w1 :: w2 :: w3 :: w4 :: rest) =
        w0 :: ⟨w1.text ++ w2.text ++ w3.text, true, true, w1.sentence_number, false⟩ ::
          w4 :: mergeComplexAcronyms rest from by
      rw [mergeComplexAcronyms]
      rw [if_pos hcond2]] at hx
    rcases List.mem_cons.mp hx with rfl | hx
    · exact ⟨x, by simp, rfl⟩
    rcases List.mem_cons.mp hx with rfl | hx
    · exact ⟨w1, by simp, rfl⟩
    rcases List.mem_cons.mp hx with rfl | hx
    · exact ⟨x, by simp, rfl⟩
    · obtain ⟨y, hy, hxy⟩ := ih x hx
      exact ⟨y, by simp [hy], hxy⟩
  | case2 w0 w1 w2 w3 w4 rest acr hcond ih =>
    intro x hx
    have hcond2 : ¬ (w0.text = ['('] ∧ w4.text = [')'] ∧
        (w2.text = ['-'] ∨ w2.text = ['/']) ∧
        looksLikeAcronym (w1.text ++ w2.text ++ w3.text) = true) := hcond
    rw [show mergeComplexAcronyms (w0 :: w1 :: w2 :: w3 :: w4 :: rest) =
        w0 :: mergeComplexAcronyms (w1 :: w2 :: w3 :: w4 :: rest) from by
      rw [mergeComplexAcronyms]
      rw [if_neg hcond2]] at hx
    rcases List.mem_cons.mp hx with rfl | hx
    · exact ⟨x, by simp, rfl⟩
    · obtain ⟨y, hy, hxy⟩ := ih x hx
      exact ⟨y, List.mem_cons_of_mem w0 hy, hxy⟩
  | case3 ws hshape =>
    intro x hx
    rw [show mergeComplexAcronyms ws = ws from ?_] at hx
    · exact ⟨x, hx, rfl⟩
    · match ws, hshape with
      | [], _ => rfl
      | [a], _ => rfl
      | [a, b], _ => rfl
      | [a, b, c], _ => rfl
      | [a, b, c, d], _ => rfl
      | a :: b :: c :: d :: e :: t, hsh => exact absurd rfl (hsh a b c d e t)

/-- Merging preserves the non-decreasing sentence numbering. -/
theorem merge_sent_pairwise (ws : List WordMetadata)
    (h : ws.Pairwise (fun a b => a.sentence_number ≤ b.sentence_number)) :
    (mergeComplexAcronyms ws).Pairwise
      (fun a b => a.sentence_number ≤ b.sentence_number) := by
  induction ws using mergeComplexAcronyms.induct with
  | case1 w0 w1 w2 w3 w4 rest acr hcond ih =>
    have hcond2 : w0.text = ['('] ∧ w4.text = [')'] ∧
        (w2.text = ['-'] ∨ w2.text = ['/']) ∧
        looksLikeAcronym (w1.text ++ w2.text ++ w3.text) = true := hcond
    rw [show mergeComplexAcronyms (w0 :: w1 :: w2 :: w3 :: w4 :: rest) =
        w0 :: ⟨w1.text ++ w2.text ++ w3.text, true, true, w1.sentence_number, false⟩ ::
          w4 :: mergeComplexAcronyms rest from by
      rw [mergeComplexAcronyms]
      rw [if_pos hcond2]]
    rw [List.pairwise_cons] at h
    obtain ⟨h0, h⟩ := h
    rw [List.pairwise_cons] at h
    obtain ⟨h1, h⟩ := h
    rw [List.pairwise_cons] at h
    obtain ⟨h2, h⟩ := h
    rw [List.pairwise_cons] at h
    obtain ⟨h3, h⟩ := h
    rw [List.pairwise_cons] at h
    obtain ⟨h4, hrest⟩ := h
    refine List.Pairwise.cons ?_ (List.Pairwise.cons ?_ (List.Pairwise.cons ?_ (ih hrest)))
    · intro b hb
      rcases List.mem_cons.mp hb with rfl | hb
      · exact h0 w1 (by simp)
      rcases List.mem_cons.mp hb with rfl | hb
      · exact h0 b (by simp)
      · obtain ⟨y, hy, hby⟩ := merge_sent_mem rest b hb
        rw [hby]
        exact h0 y (by simp [hy])
    · intro b hb
      rcases List.mem_cons.mp hb with rfl | hb
      · exact h1 b (by simp)
      · obtain ⟨y, hy, hby⟩ := merge_sent_mem rest b hb
        rw [hby]
        exact h1 y (by simp [hy])
    · intro b hb
      obtain ⟨y, hy, hby⟩ := merge_sent_mem rest b hb
      rw [hby]
      exact h4 y hy
  | case2 w0 w1 w2 w3 w4 rest acr hcond ih =>
    have hcond2 : ¬ (w0.text = ['('] ∧ w4.text = [')'] ∧
        (w2.text = ['-'] ∨ w2.text = ['/']) ∧
        looksLikeAcronym (w1.text ++ w2.text ++ w3.text) = true) := hcond
    rw [show mergeComplexAcronyms (w0 :: w1 :: w2 :: w3 :: w4 :: rest) =
        w0 :: mergeComplexAcronyms (w1 :: w2 :: w3 :: w4 :: rest) from by
      rw [mergeComplexAcronyms]
      rw [if_neg hcond2]]
    rw [List.pairwise_cons] at h
    obtain ⟨h0, htail⟩ := h
    refine List.Pairwise.cons ?_ (ih htail)
    intro b hb
    obtain ⟨y, hy, hby⟩ := merge_sent_mem (w1 :: w2 :: w3 :: w4 :: rest) b hb
    rw [hby]
    exact h0 y hy
  | case3 ws hshape =>
    rw [show mergeComplexAcronyms ws = ws from ?_]
    · exact h
    · match ws, hshape with
      | [], _ => rfl
      | [a], _ => rfl
      | [a, b], _ => rfl
      | [a, b, c], _ => rfl
      | [a, b, c, d], _ => rfl
      | a :: b :: c :: d :: e :: t, hsh => exact absurd rfl (hsh a b c d e t)

/-- Indexed form of sentence monotonicity. -/
theorem pairwise_getD_mono {ws : List WordMetadata}
    (h : ws.Pairwise (fun a b => a.sentence_number ≤ b.sentence_number))
    (i j : Nat) (hij : i ≤ j) (hj : j < ws.length) :
    (ws.getD i default).sentence_number ≤ (ws.getD j default).sentence_number := by
  rcases Nat.eq_or_lt_of_le hij with rfl | hlt
  · exact Nat.le_refl _
  · have hi : i < ws.length := Nat.lt_trans hlt hj
    rw [List.getD_eq_getElem _ _ hi, List.getD_eq_getElem _ _ hj]
    exact List.pairwise_iff_getElem.mp h i j hi hj hlt

/-- Output lists of `addLetterMatches` are input lists, possibly with
the visited position prepended. -/
theorem addLetterMatches_inv (words : List WordMetadata) (wpos : Nat) :
    ∀ (m : List (List Nat)) (atext : Str) (l : List Nat),
      l ∈ addLetterMatches words wpos atext m →
      l ∈ m ∨ ∃ lst ∈ m, l = wpos :: lst := by
  intro m
  induction m with
  | nil => intro atext l hl; simp [addLetterMatches] at hl
  | cons a t ih =>
    intro atext l hl
    cases atext with
    | nil => simp [addLetterMatches] at hl
    | cons b t2 =>
      rw [show addLetterMatches words wpos (b :: t2) (a :: t) =
          (match (words.getD wpos default).text with
           | [] => a
           | c :: _ => if asciiLower c = asciiLower b then wpos :: a else a) ::
            addLetterMatches words wpos t2 t from rfl] at hl
      rcases List.mem_cons.mp hl with heq | hl
    -- the head is `a` or `wpos :: a`
      · cases htext : (words.getD wpos default).text with
        | nil =>
          rw [htext] at heq
          exact Or.inl (by simp [heq])
        | cons c rest =>
          rw [htext] at heq
          have heq2 : l = if asciiLower c = asciiLower b then wpos :: a else a := heq
          by_cases hc : asciiLower c = asciiLower b
          · rw [if_pos hc] at heq2
            exact Or.inr ⟨a, by simp, heq2⟩
          · rw [if_neg hc] at heq2
            exact Or.inl (by simp [heq2])
      · rcases ih t2 l hl with h | ⟨lst, hlst, heq⟩
        · exact Or.inl (List.mem_cons_of_mem a h)
        · exact Or.inr ⟨lst, List.mem_cons_of_mem a hlst, heq⟩

/-- Indices collected by the backward walk satisfy any property that
holds for visited positions in the acronym's sentence and for the
initial candidate lists. -/
theorem collectGo_prop (words : List WordMetadata) (apos : Nat) (atext : Str)
    (budget : Nat) (P : Nat → Prop) :
    ∀ (pil : List Nat) (m : List (List Nat)),
      (∀ l ∈ m, ∀ idx ∈ l, P idx) →
      (∀ x ∈ pil, (words.getD x default).sentence_number =
        (words.getD apos default).sentence_number → P x) →
      ∀ l ∈ collectGo words apos atext budget pil m, ∀ idx ∈ l, P idx := by
  intro pil
  induction pil with
  | nil => intro m hm _ l hl; exact hm l hl
  | cons wpos rest ih =>
    intro m hm hpil l hl
    by_cases h1 : (words.getD wpos default).sentence_number ≠
        (words.getD apos default).sentence_number
    · rw [show collectGo words apos atext budget (wpos :: rest) m = m from by
        rw [collectGo]; rw [if_pos h1]] at hl
      exact hm l hl
    · by_cases h2 : wordsCovered words wpos apos > atext.length + budget
      · rw [show collectGo words apos atext budget (wpos :: rest) m = m from by
          rw [collectGo]; rw [if_neg h1]; rw [if_pos h2]] at hl
        exact hm l hl
      · rw [show collectGo words apos atext budget (wpos :: rest) m =
            collectGo words apos atext budget rest
              (addLetterMatches words wpos atext m) from by
          rw [collectGo]; rw [if_neg h1]; rw [if_neg h2]] at hl
        refine ih (addLetterMatches words wpos atext m) ?_ ?_ l hl
        · intro l2 hl2 idx hidx
          rcases addLetterMatches_inv words wpos m atext l2 hl2 with h | ⟨lst, hlst, rfl⟩
          · exact hm l2 h idx hidx
          · rcases List.mem_cons.mp hidx with rfl | hidx2
            · exact hpil idx (by simp) (by push_neg at h1; exact h1)
            · exact hm lst hlst idx hidx2
        · intro x hx hsx
          exact hpil x (List.mem_cons_of_mem wpos hx) hsx

/-- Indices collected by `collectMatches` precede the acronym and share
its sentence number. -/
theorem collectMatches_prop (words : List WordMetadata) (apos : Nat) (atext : Str)
    (budget : Nat) :
    ∀ l ∈ collectMatches words apos atext budget, ∀ idx ∈ l,
      idx < apos ∧ (words.getD idx default).sentence_number =
        (words.getD apos default).sentence_number := by
  refine collectGo_prop words apos atext budget _ _ _ ?_ ?_
  · intro l hl idx hidx
    rw [List.mem_map] at hl
    obtain ⟨_, _, heq⟩ := hl
    rw [← heq] at hidx
    cases hidx
  · intro x hx hsx
    rw [List.mem_reverse, List.mem_range] at hx
    exact ⟨by omega, hsx⟩

/-- Every entry of every enumerated path is the missing marker or an
index drawn from the per-letter candidate lists. -/
theorem enumPaths_entry_prop (P : Nat → Prop) (ms : List (List Nat)) :
    ∀ paths0 : List (List (Option Nat)),
      (∀ q ∈ paths0, ∀ e ∈ q, ∀ idx : Nat, e = some idx → P idx) →
      (∀ l ∈ ms, ∀ idx ∈ l, P idx) →
      ∀ p ∈ enumPaths paths0 ms, ∀ e ∈ p, ∀ idx : Nat, e = some idx → P idx := by
  induction ms with
  | nil => intro paths0 h0 _ p hp; exact h0 p hp
  | cons m ms ih =>
    intro paths0 h0 hms p hp
    rw [show enumPaths paths0 (m :: ms) = enumPaths (stepPaths paths0 m) ms from rfl] at hp
    refine ih (stepPaths paths0 m) ?_ (fun l hl => hms l (List.mem_cons_of_mem m hl)) p hp
    intro q' hq' e he idx heq
    obtain ⟨q, hq, hcase⟩ := stepPaths_inv hq'
    rcases hcase with rfl | ⟨c, hcmem, rfl, _⟩
    · rcases List.mem_append.mp he with h | h
      · exact h0 q hq e h idx heq
      · simp at h
        rw [h] at heq
        cases heq
    · rcases List.mem_append.mp he with h | h
      · exact h0 q hq e h idx heq
      · simp at h
        rw [h] at heq
        cases heq
        exact hms m (by simp) idx hcmem

/-- The selected minimum is one of the candidates. -/
theorem minByKey_mem (f : α → Nat × Int × Int) (l : List α) (x : α)
    (h : minByKey f l = some x) : x ∈ l := by
  cases l with
  | nil => cases h
  | cons a t =>
    have haux : ∀ (t2 : List α) (acc : α) (l2 : List α), acc ∈ l2 →
        (∀ y ∈ t2, y ∈ l2) →
        t2.foldl (fun acc y => if keyLt (f y) (f acc) then y else acc) acc ∈ l2 := by
      intro t2
      induction t2 with
      | nil => intro acc l2 hacc _; exact hacc
      | cons b t3 ih =>
        intro acc l2 hacc hall
        rw [List.foldl_cons]
        refine ih _ l2 ?_ (fun y hy => hall y (List.mem_cons_of_mem b hy))
        by_cases hk : keyLt (f b) (f acc)
        · rw [if_pos hk]; exact hall b (by simp)
        · rw [if_neg hk]; exact hacc
    have := haux t a (a :: t) (by simp) (fun y hy => List.mem_cons_of_mem a hy)
    rw [minByKey] at h
    simp at h
    rw [← h]
    exact this

/-- Every non-missing entry after interpolation carries a value that
already occurred among the given entries (previous-entry values are
only copied, never invented). -/
theorem interpGo_prop (words : List WordMetadata) (P : Nat → Prop)
    (prev : Option Nat) (pairs : List (Option Nat × Char)) :
    (∀ i : Nat, prev = some i → P i) →
    (∀ pr ∈ pairs, ∀ i : Nat, pr.1 = some i → P i) →
    ∀ e ∈ interpGo words prev pairs, ∀ i : Nat, e = some i → P i := by
  induction prev, pairs using interpGo.induct words with
  | case1 x =>
    intro _ _ e he
    simp [interpGo] at he
  | case2 x c snd rest ih =>
    intro hprev hpairs e he i heq
    rw [show interpGo words x ((some c, snd) :: rest) =
        some c :: interpGo words (some c) rest from by rw [interpGo]] at he
    rcases List.mem_cons.mp he with rfl | he2
    · cases heq
      exact hpairs (some c, snd) (by simp) c rfl
    · refine ih ?_ ?_ e he2 i heq
      · intro j hj
        cases hj
        exact hpairs (some c, snd) (by simp) c rfl
      · intro pr hpr
        exact hpairs pr (List.mem_cons_of_mem _ hpr)
  | case3 snd rest =>
    intro hprev hpairs e he i heq
    rw [show interpGo words none ((none, snd) :: rest) =
        none :: rest.map Prod.fst from by rw [interpGo]] at he
    rcases List.mem_cons.mp he with rfl | he2
    · cases heq
    · rw [List.mem_map] at he2
      obtain ⟨pr, hpr, rfl⟩ := he2
      exact hpairs pr (List.mem_cons_of_mem _ hpr) i heq
  | case4 pc letter rest hstop ih =>
    intro hprev hpairs e he i heq
    rw [show interpGo words (some pc) ((none, letter) :: rest) =
        none :: interpGo words none rest from by
      rw [interpGo]; rw [if_pos hstop]] at he
    rcases List.mem_cons.mp he with rfl | he2
    · cases heq
    · refine ih (by intro j hj; cases hj) ?_ e he2 i heq
      intro pr hpr
      exact hpairs pr (List.mem_cons_of_mem _ hpr)
  | case5 pc letter rest hstop hin ih =>
    intro hprev hpairs e he i heq
    rw [show interpGo words (some pc) ((none, letter) :: rest) =
        some pc :: interpGo words (some pc) rest from by
      rw [interpGo]; rw [if_neg hstop]; rw [if_pos hin]] at he
    rcases List.mem_cons.mp he with rfl | he2
    · cases heq
      exact hprev pc rfl
    · refine ih hprev ?_ e he2 i heq
      intro pr hpr
      exact hpairs pr (List.mem_cons_of_mem _ hpr)
  | case6 pc letter rest hstop hin ih =>
    intro hprev hpairs e he i heq
    rw [show interpGo words (some pc) ((none, letter) :: rest) =
        none :: interpGo words none rest from by
      rw [interpGo]; rw [if_neg hstop]; rw [if_neg hin]] at he
    rcases List.mem_cons.mp he with rfl | he2
    · cases heq
    · refine ih (by intro j hj; cases hj) ?_ e he2 i heq
      intro pr hpr
      exact hpairs pr (List.mem_cons_of_mem _ hpr)

/-- Interpolation over the best path keeps entry values among the
original path's values. -/
theorem interpolate_prop (words : List WordMetadata) (P : Nat → Prop)
    (best : List (Option Nat)) (atext : Str)
    (hbest : ∀ e ∈ best, ∀ i : Nat, e = some i → P i) :
    ∀ e ∈ interpolate words best atext, ∀ i : Nat, e = some i → P i := by
  have hz : ∀ pr ∈ best.zip atext, ∀ i : Nat, pr.1 = some i → P i := by
    intro pr hpr i hi
    exact hbest pr.1 (List.of_mem_zip hpr).1 i hi
  unfold interpolate
  cases hzeq : best.zip atext with
  | nil => simp
  | cons p0 rest =>
    intro e he i hi
    have hp0 : p0 ∈ best.zip atext := by rw [hzeq]; simp
    rcases List.mem_cons.mp he with rfl | he2
    · exact hz p0 hp0 i hi
    · refine interpGo_prop words P p0.1 rest (fun j hj => hz p0 hp0 j hj) ?_ e he2 i hi
      intro pr hpr
      refine hz pr ?_
      rw [hzeq]
      exact List.mem_cons_of_mem p0 hpr

/-- The minimum over the non-missing entries is one of the entries. -/
theorem nonNoneMin_mem (l : List (Option Nat)) (x : Nat)
    (h : nonNoneMin l = some x) : some x ∈ l := by
  unfold nonNoneMin at h
  have hx := List.min?_mem (fun a b : Nat => Nat.min_def ▸ (by split <;> simp)) h
  rw [List.mem_filterMap] at hx
  obtain ⟨o, ho, hoe⟩ := hx
  cases o with
  | none => cases hoe
  | some y => cases hoe; exact ho

/-- When the per-acronym loop body emits a definition, the emitted
start index precedes the acronym and shares its sentence number. -/
theorem processAcronym_start (words : List WordMetadata) (budget apos start : Nat)
    (h : processAcronym words budget apos = some start) :
    start < apos ∧ (words.getD start default).sentence_number =
      (words.getD apos default).sentence_number := by
  unfold processAcronym at h
  split at h
  · cases h
  next hacr =>
    split at h
    · cases h
    next m0 rest heq =>
      split at h
      · cases h
      next best hmin =>
        split at h
        next hcnt =>
          have hcoll := collectMatches_prop words apos
            (words.getD apos default).text budget
          rw [heq] at hcoll
          have hbm := minByKey_mem pathKey _ best hmin
          rw [List.mem_filter] at hbm
          have hbest : ∀ e ∈ best, ∀ i : Nat, e = some i →
              i < apos ∧ (words.getD i default).sentence_number =
                (words.getD apos default).sentence_number := by
            refine enumPaths_entry_prop _ rest _ ?_ ?_ best hbm.1
            · intro q hq e he i hei
              rw [List.mem_map] at hq
              obtain ⟨c, hc, rfl⟩ := hq
              simp at he
              rw [he] at hei
              cases hei
              exact hcoll m0 (by simp) i (List.mem_filter.mp hc).1
            · intro l hl idx hidx
              exact hcoll l (List.mem_cons_of_mem m0 hl) idx hidx
          have hinterp := interpolate_prop words _ best
            (words.getD apos default).text hbest
          have hsome := nonNoneMin_mem _ _ h
          exact hinterp (some start) hsome start rfl
        next hcnt => cases h

/-- C5: sentence isolation.  Whenever `mark_acronyms` emits a
definition for the acronym token at `apos` (modelled by
`processAcronym` returning the span start), every token of the emitted
definition span (indices `start ≤ j < apos - 1`) has the same sentence
number as the acronym token: an acronym never aligns to words of an
earlier sentence, whatever the text. -/
theorem C5_sentence_isolation (text : Str) (budget apos start j : Nat)
    (hp : processAcronym (mergeComplexAcronyms (splitWords text)) budget apos =
      some start)
    (hapos : apos < (mergeComplexAcronyms (splitWords text)).length)
    (hj1 : start ≤ j) (hj2 : j < apos - 1) :
    ((mergeComplexAcronyms (splitWords text)).getD j default).sentence_number =
      ((mergeComplexAcronyms (splitWords text)).getD apos default).sentence_number := by
  obtain ⟨hlt, heq⟩ := processAcronym_start _ budget apos start hp
  have hpair := merge_sent_pairwise (splitWords text) (splitWords_sent_pairwise text)
  have h1 := pairwise_getD_mono hpair start j hj1 (by omega)
  have h2 := pairwise_getD_mono hpair j apos (by omega) hapos
  omega

/-- C5 witness: on the EGFR text the acronym at token 10 emits the span
starting at 0 and token 4 (`factor`) lies in sentence 0 with it. -/
theorem C5_witness :
    ((mergeComplexAcronyms (splitWords
        "epidermal growth factor receptor (EGFR) are found".toList)).getD 4
          default).sentence_number =
      ((mergeComplexAcronyms (splitWords
        "epidermal growth factor receptor (EGFR) are found".toList)).getD 10
          default).sentence_number :=
  C5_sentence_isolation "epidermal growth factor receptor (EGFR) are found".toList
    2 10 0 4 (by decide) (by decide) (by decide) (by decide)
